import Mathlib

/-!
Verification development for the massalabs community-storage node
(`src/server/src`).  The Rust sources are shallowly embedded: bytes are
`Nat` values below 256 in `List Nat`, the blob-store filesystem is an
explicit list of files, and fallible operations return `Except`.
-/

namespace CommunityStorage

/-! ## Storage (`storage.rs`) -/

/-- Characters the store keeps unchanged: ASCII alphanumeric, dash,
underscore (`sanitize_segment`'s predicate in `storage.rs`). -/
def allowedChar (c : Char) : Bool :=
  (('0' ≤ c ∧ c ≤ '9') ∨ ('a' ≤ c ∧ c ≤ 'z') ∨ ('A' ≤ c ∧ c ≤ 'Z')
    ∨ c = '-' ∨ c = '_' : Bool)

/-- `sanitize_segment` from `storage.rs`: every character outside the
allowed alphabet is replaced by an underscore. -/
def sanitize_segment (s : String) : String :=
  String.mk (s.toList.map (fun c => if allowedChar c then c else '_'))

/-- UTF-8 encoding of one Unicode scalar value (used to measure on-disk
byte sizes of JSON metadata written by `fs::write`). -/
def charUtf8 (c : Char) : List Nat :=
  let n := c.toNat
  if n < 0x80 then [n]
  else if n < 0x800 then [0xC0 + n / 64, 0x80 + n % 64]
  else if n < 0x10000 then
    [0xE0 + n / 4096, 0x80 + n / 64 % 64, 0x80 + n % 64]
  else
    [0xF0 + n / 262144, 0x80 + n / 4096 % 64, 0x80 + n / 64 % 64, 0x80 + n % 64]

/-- UTF-8 bytes of a string. -/
def strBytes (s : String) : List Nat :=
  s.toList.flatMap charUtf8

/-- serde_json escaping of one character inside a JSON string literal. -/
def jsonEscapeChar (c : Char) : List Char :=
  if c = '"' then ['\\', '"']
  else if c = '\\' then ['\\', '\\']
  else if c = '\n' then ['\\', 'n']
  else if c = '\r' then ['\\', 'r']
  else if c = '\t' then ['\\', 't']
  else if c.toNat < 0x20 then
    let hx := fun (n : Nat) => if n < 10 then Char.ofNat (48 + n) else Char.ofNat (87 + n)
    ['\\', 'u', '0', '0', hx (c.toNat / 16), hx (c.toNat % 16)]
  else [c]

/-- serde_json serialization of `BlobMeta` (`storage.rs`): the
`uploader_address` field is skipped when `None`. -/
def metaJson (minReplication : Nat) (uploaderAddress : Option String) : String :=
  "\x7b\"min_replication\":" ++ toString minReplication ++
    (match uploaderAddress with
     | none => ""
     | some a =>
         ",\"uploader_address\":\"" ++ String.mk (a.toList.flatMap jsonEscapeChar) ++ "\"") ++
  "\x7d"

/-- The storage directory tree: a list of regular files
`(namespace directory, file name, content bytes)`.  `fs::create_dir_all`
is not modelled because directories contribute no bytes to
`total_size` and no claim observes empty directories. -/
abbrev FS := List (String × String × List Nat)

/-- `fs::write`: truncate/overwrite an existing file, otherwise create it. -/
def fsWrite : FS → String → String → List Nat → FS
  | [], ns, name, data => [(ns, name, data)]
  | e :: rest, ns, name, data =>
      if e.1 = ns ∧ e.2.1 = name then (ns, name, data) :: rest
      else e :: fsWrite rest ns name data

/-- `fs::read`: the content of the file at `{ns}/{name}`, if present. -/
def fsRead : FS → String → String → Option (List Nat)
  | [], _, _ => none
  | e :: rest, ns, name =>
      if e.1 = ns ∧ e.2.1 = name then some e.2.2 else fsRead rest ns name

/-- `Storage::total_size`: recursive byte sum over every file under the
base directory (payloads and `.meta` sidecars alike). -/
def total_size (fs : FS) : Nat :=
  (fs.map (fun e => e.2.2.length)).sum

/-- Error kinds surfaced by the storage operations. -/
inductive StorageError where
  | quotaExceeded
  | invalidInput
  | notFound
  deriving DecidableEq, Repr

/-- `u64::MAX`, the saturation point of `saturating_add`. -/
def u64Max : Nat := 2 ^ 64 - 1

/-- The id used by `Storage::put`: the sanitized hint when it is
non-empty, otherwise the fresh uuid string drawn for this call. -/
def chooseId (idHint : Option String) (freshId : String) : String :=
  match (idHint.map sanitize_segment).filter (· ≠ "") with
  | some s => s
  | none => freshId

/-- One `Storage::put` call (`storage.rs` lines 137-173).  `freshId`
stands for the `Uuid::new_v4().to_string()` value drawn when no usable
id hint is supplied.  The admission check runs before any write; on
success the payload file and then the `{id}.meta` sidecar are written. -/
def put (storageLimitBytes : Nat) (fs : FS) (namespace_ : String)
    (idHint : Option String) (data : List Nat) (minReplication : Nat)
    (uploaderAddress : Option String) (freshId : String) :
    Except StorageError (String × FS) :=
  if Nat.min (total_size fs + data.length) u64Max > storageLimitBytes then
    .error .quotaExceeded
  else if sanitize_segment namespace_ = "" then .error .invalidInput
  else
    .ok (chooseId idHint freshId,
      fsWrite (fsWrite fs (sanitize_segment namespace_) (chooseId idHint freshId) data)
        (sanitize_segment namespace_) (chooseId idHint freshId ++ ".meta")
        (strBytes (metaJson minReplication uploaderAddress)))

/-- `Storage::get` (`storage.rs` lines 176-187). -/
def get (fs : FS) (namespace_ id : String) : Except StorageError (List Nat) :=
  let ns := sanitize_segment namespace_
  let i := sanitize_segment id
  if ns = "" ∨ i = "" then .error .invalidInput
  else
    match fsRead fs ns i with
    | some d => .ok d
    | none => .error .notFound

/-- One put request (arguments of `Storage::put`, plus the fresh id the
uuid generator would produce for this call). -/
structure PutReq where
  namespace_ : String
  idHint : Option String
  data : List Nat
  minReplication : Nat
  uploaderAddress : Option String
  freshId : String

/-- Run a sequence of sequential `put` calls from an empty store; a
rejected call leaves the filesystem as it was (the Rust code returns
before any `fs::write`). -/
def runPuts (storageLimitBytes : Nat) (reqs : List PutReq) : FS :=
  reqs.foldl
    (fun fs r =>
      match put storageLimitBytes fs r.namespace_ r.idHint r.data
          r.minReplication r.uploaderAddress r.freshId with
      | .ok (_, fs') => fs'
      | .error _ => fs)
    []

/-! ## P2P event loop (`p2p.rs`) -/

/-- Substring test on character lists (Rust `str::contains`). -/
def listContainsSub : List Char → List Char → Bool
  | [], pat => pat.isEmpty
  | c :: t, pat => pat.isPrefixOf (c :: t) || listContainsSub t pat

/-- Rust `str::contains` for string patterns. -/
def strContainsSub (s pat : String) : Bool :=
  listContainsSub s.toList pat.toList

/-- `is_localhost_multiaddr` from `p2p.rs`: the multiaddr string contains
`/ip4/0.0.0.0/` or `/ip4/127.0.0.1/`. -/
def is_localhost_multiaddr (addr : String) : Bool :=
  strContainsSub addr "/ip4/0.0.0.0/" || strContainsSub addr "/ip4/127.0.0.1/"

/-- The two pieces of state the `NewListenAddr` handler mutates: the
`listen_addrs` list inside `P2pState` and the shared
`discovered_addrs` vector. -/
structure P2pLocal where
  listenAddrs : List String
  discovered : List String
  deriving DecidableEq, Repr

/-- The `SwarmEvent::NewListenAddr` arm of the event loop (`p2p.rs`
lines 228-246): always push onto `listen_addrs`; push onto the shared
discovered set only when the address is not a localhost multiaddr and is
not already present. -/
def handleNewListenAddr (st : P2pLocal) (address : String) : P2pLocal :=
  let st1 : P2pLocal := { st with listenAddrs := st.listenAddrs ++ [address] }
  if is_localhost_multiaddr address = false then
    if address ∈ st1.discovered then st1
    else { st1 with discovered := st1.discovered ++ [address] }
  else st1

/-- Process a sequence of `NewListenAddr` events from the initial empty
state (`P2pState::new` starts with no listen addresses, and `main.rs`
creates the shared discovered vector empty). -/
def runNewListenAddrs (events : List String) : P2pLocal :=
  events.foldl handleNewListenAddr ⟨[], []⟩

/-! ## Discovery loop (`main.rs` lines 161-201) -/

/-- A provider record as returned by `get_all_providers`. -/
structure Provider where
  address : String
  p2pAddrs : List String

/-- Discovery-loop state: the monotone `known_addrs` set and the trace of
dial commands issued so far, each tagged with the provider that
triggered it. -/
abbrev DiscState := List String × List (String × String)

/-- Handling of one advertised address inside the discovery loop: dial
only non-empty addresses not yet in `known_addrs`, inserting them. -/
def discDialStep (providerAddr : String) (st : DiscState) (addr : String) : DiscState :=
  if addr ≠ "" ∧ addr ∉ st.1 then (st.1 ++ [addr], st.2 ++ [(providerAddr, addr)])
  else st

/-- Handling of one provider: self is skipped entirely, otherwise every
advertised address is processed in order. -/
def procProvider (selfAddr : String) (st : DiscState) (p : Provider) : DiscState :=
  if selfAddr = p.address then st
  else p.p2pAddrs.foldl (discDialStep p.address) st

/-- One discovery cycle over the provider list returned by the registry. -/
def procCycle (selfAddr : String) (st : DiscState) (providers : List Provider) : DiscState :=
  providers.foldl (procProvider selfAddr) st

/-- The discovery loop across its cycles, starting from an empty
`known_addrs` set. -/
def runDiscovery (selfAddr : String) (cycles : List (List Provider)) : DiscState :=
  cycles.foldl (procCycle selfAddr) ([], [])
/-- The discovery loop only ever extends its state: the known set gains
exactly the addresses of the newly issued dials, new dials target
addresses that were unknown, are mutually distinct, and (for the lemmas
below) are tagged with non-self providers. -/
def DiscExtend (selfAddr : String) (st st' : DiscState) : Prop :=
  ∃ π : List (String × String),
    st'.1 = st.1 ++ π.map Prod.snd ∧
    st'.2 = st.2 ++ π ∧
    (π.map Prod.snd).Nodup ∧
    (∀ a ∈ π.map Prod.snd, a ∉ st.1) ∧
    (∀ pr ∈ π, pr.1 ≠ selfAddr)

/-! ## Registration/metadata reconciliation (`main.rs` lines 299-347) -/

/-- Published provider metadata as fetched by `get_provider_metadata`. -/
structure ProviderMetadata where
  endpoint : String
  p2pAddrs : List String

/-- Equality of the two `HashSet`s built from the address lists in
`main.rs`: same underlying sets of strings. -/
def setEqStr (l1 l2 : List String) : Bool :=
  l1.all (fun a => decide (a ∈ l2)) && l2.all (fun a => decide (a ∈ l1))

/-- `metadata_needs_update` as computed by the registration task: the
endpoint is compared as an exact string, the address lists as sets; a
failed metadata fetch conservatively forces an update. -/
def metadata_needs_update (fetched : Except Unit ProviderMetadata)
    (endpointForContract : String) (multiaddrs : List String) : Bool :=
  match fetched with
  | .ok current =>
      decide (current.endpoint ≠ endpointForContract) || !setEqStr current.p2pAddrs multiaddrs
  | .error _ => true

/-- Number of `update_provider_metadata` write operations the
already-registered branch submits: one when an update is needed,
zero otherwise. -/
def reconcileUpdateOps (fetched : Except Unit ProviderMetadata)
    (endpointForContract : String) (multiaddrs : List String) : Nat :=
  if metadata_needs_update fetched endpointForContract multiaddrs then 1 else 0

/-! ## Args serialization (`args.rs`)

Byte buffers are `List Nat` with entries below 256.  A Rust `String` is
represented by its UTF-8 byte list (its type invariant being that those
bytes are valid UTF-8), so `str::as_bytes` is the identity and
`String::from_utf8` is a validity check that returns the same bytes. -/

/-- Errors of the argument decoder (`ArgsError` in `args.rs`). -/
inductive ArgsError where
  | outOfRange (label : String)
  | invalidUtf8
  deriving DecidableEq, Repr

/-- Result of running a decoder step: a value, a returned `ArgsError`,
or a Rust panic (out-of-bounds slice index / failed `unwrap`).  The
panic outcome exists in the model precisely so that panic-freedom is a
theorem rather than a modelling assumption. -/
inductive DRes (α : Type) where
  | ok (a : α)
  | err (e : ArgsError)
  | panicked
  deriving Repr

/-- Builder/reader for serialized call arguments (`Args` in `args.rs`). -/
structure Args where
  data : List Nat
  offset : Nat
  deriving DecidableEq, Repr

/-- `Args::new()`. -/
def Args.new : Args := ⟨[], 0⟩

/-- `Args::from_bytes`. -/
def Args.from_bytes (data : List Nat) : Args := ⟨data, 0⟩

/-- `Args::into_bytes`. -/
def Args.into_bytes (a : Args) : List Nat := a.data

/-- Rust slice indexing `data[lo..hi]`: panics when the range is out of
bounds, otherwise yields the sub-slice. -/
def sliceRange (data : List Nat) (lo hi : Nat) : DRes (List Nat) :=
  if lo ≤ hi ∧ hi ≤ data.length then .ok ((data.drop lo).take (hi - lo))
  else .panicked

/-- Little-endian byte decoding (`u32::from_le_bytes`/`u64::from_le_bytes`
applied to the byte lists produced by the encoders). -/
def leDecode (bytes : List Nat) : Nat :=
  bytes.foldr (fun b acc => b + 256 * acc) 0

/-- `u32::to_le_bytes` of `n as u32`: four little-endian bytes, which
depend only on `n % 2^32`. -/
def le4 (n : Nat) : List Nat :=
  [n % 256, n / 256 % 256, n / 65536 % 256, n / 16777216 % 256]

/-- `Args::next_u32`: bounds check, 4-byte slice, `try_into` (panics on a
slice of the wrong length — provably unreachable), advance. -/
def nextU32 (a : Args) : DRes (Nat × Args) :=
  if a.offset + 4 > a.data.length then .err (.outOfRange "u32")
  else
    match sliceRange a.data a.offset (a.offset + 4) with
    | .ok bytes =>
        if bytes.length = 4 then .ok (leDecode bytes, ⟨a.data, a.offset + 4⟩)
        else .panicked
    | .err e => .err e
    | .panicked => .panicked

/-- `Args::next_u64`: as `next_u32` with 8 bytes. -/
def nextU64 (a : Args) : DRes (Nat × Args) :=
  if a.offset + 8 > a.data.length then .err (.outOfRange "u64")
  else
    match sliceRange a.data a.offset (a.offset + 8) with
    | .ok bytes =>
        if bytes.length = 8 then .ok (leDecode bytes, ⟨a.data, a.offset + 8⟩)
        else .panicked
    | .err e => .err e
    | .panicked => .panicked

/-- `Args::next_bytes`: u32 length prefix, bounds check, slice, advance. -/
def nextBytes (a : Args) : DRes (List Nat × Args) :=
  match nextU32 a with
  | .ok (len, a1) =>
      if a1.offset + len > a1.data.length then .err (.outOfRange "bytes")
      else
        match sliceRange a1.data a1.offset (a1.offset + len) with
        | .ok bytes => .ok (bytes, ⟨a1.data, a1.offset + len⟩)
        | .err e => .err e
        | .panicked => .panicked
  | .err e => .err e
  | .panicked => .panicked

/-- Is `b` a UTF-8 continuation byte? -/
def isContByte (b : Nat) : Bool := (0x80 ≤ b ∧ b ≤ 0xBF : Bool)

/-- UTF-8 validity of a byte sequence, as checked by Rust's
`String::from_utf8` (shortest-form encodings, no surrogates, max
U+10FFFF). -/
def validUtf8 : List Nat → Bool
  | [] => true
  | b :: rest =>
    if b ≤ 0x7F then validUtf8 rest
    else if 0xC2 ≤ b ∧ b ≤ 0xDF then
      match rest with
      | c1 :: r => isContByte c1 && validUtf8 r
      | [] => false
    else if b = 0xE0 then
      match rest with
      | c1 :: c2 :: r => (0xA0 ≤ c1 ∧ c1 ≤ 0xBF : Bool) && isContByte c2 && validUtf8 r
      | _ => false
    else if (0xE1 ≤ b ∧ b ≤ 0xEC) ∨ (0xEE ≤ b ∧ b ≤ 0xEF) then
      match rest with
      | c1 :: c2 :: r => isContByte c1 && isContByte c2 && validUtf8 r
      | _ => false
    else if b = 0xED then
      match rest with
      | c1 :: c2 :: r => (0x80 ≤ c1 ∧ c1 ≤ 0x9F : Bool) && isContByte c2 && validUtf8 r
      | _ => false
    else if b = 0xF0 then
      match rest with
      | c1 :: c2 :: c3 :: r =>
          (0x90 ≤ c1 ∧ c1 ≤ 0xBF : Bool) && isContByte c2 && isContByte c3 && validUtf8 r
      | _ => false
    else if 0xF1 ≤ b ∧ b ≤ 0xF3 then
      match rest with
      | c1 :: c2 :: c3 :: r => isContByte c1 && isContByte c2 && isContByte c3 && validUtf8 r
      | _ => false
    else if b = 0xF4 then
      match rest with
      | c1 :: c2 :: c3 :: r =>
          (0x80 ≤ c1 ∧ c1 ≤ 0x8F : Bool) && isContByte c2 && isContByte c3 && validUtf8 r
      | _ => false
    else false

/-- `Args::next_string`: `next_bytes` then `String::from_utf8`. -/
def nextString (a : Args) : DRes (List Nat × Args) :=
  match nextBytes a with
  | .ok (bytes, a1) =>
      if validUtf8 bytes then .ok (bytes, a1) else .err .invalidUtf8
  | .err e => .err e
  | .panicked => .panicked

/-- The `while self.offset < end` loop body of `Args::next_string_array`.
Terminates because each successful `next_string` advances the offset. -/
def nextStringArrayLoop (endPos : Nat) (a : Args) (acc : List (List Nat)) :
    DRes (List (List Nat) × Args) :=
  if h : a.offset < endPos then
    match hs : nextString a with
    | .ok (s, a1) => nextStringArrayLoop endPos a1 (acc ++ [s])
    | .err e => .err e
    | .panicked => .panicked
  else .ok (acc, a)
termination_by endPos - a.offset
decreasing_by
  have hadv : a.offset + 4 ≤ a1.offset := by
    unfold nextString at hs
    split at hs
    case _ bytes' a2 heq =>
      split at hs
      · injection hs with hs
        injection hs with _ h2
        subst h2
        unfold nextBytes at heq
        split at heq
        case _ len a3 heq2 =>
          unfold nextU32 at heq2
          split at heq2
          · exact absurd heq2 (by simp)
          · split at heq2
            · split at heq2
              · injection heq2 with heq2
                injection heq2 with _ h3
                subst h3
                split at heq
                · exact absurd heq (by simp)
                · split at heq
                  · injection heq with heq
                    injection heq with _ h4
                    subst h4
                    show a.offset + 4 ≤ a.offset + 4 + len
                    omega
                  · exact absurd heq (by simp)
                  · exact absurd heq (by simp)
              · exact absurd heq2 (by simp)
            · exact absurd heq2 (by simp)
            · exact absurd heq2 (by simp)
        · exact absurd heq (by simp)
        · exact absurd heq (by simp)
      · exact absurd hs (by simp)
    · exact absurd hs (by simp)
    · exact absurd hs (by simp)
  omega

/-- `Args::next_string_array`: u32 total length, bounds check, then the
consuming loop. -/
def nextStringArray (a : Args) : DRes (List (List Nat) × Args) :=
  match nextU32 a with
  | .ok (total, a1) =>
      if a1.offset + total > a1.data.length then .err (.outOfRange "string array")
      else nextStringArrayLoop (a1.offset + total) a1 []
  | .err e => .err e
  | .panicked => .panicked

/-- The content vector built by the loop in `Args::add_string_array`:
each string as its u32 byte-length prefix followed by its bytes. -/
def encStrings : List (List Nat) → List Nat
  | [] => []
  | s :: rest => le4 s.length ++ s ++ encStrings rest

/-- `Args::add_string_array`: append the u32 total byte length of the
content, then the content itself. -/
def add_string_array (a : Args) (values : List (List Nat)) : Args :=
  ⟨a.data ++ le4 (encStrings values).length ++ encStrings values, a.offset⟩

/-- A decoder run settles when it returns a value or a reported
`ArgsError` — the panic outcome is not reached. -/
def settles {α : Type} (r : DRes α) : Prop :=
  (∃ v, r = .ok v) ∨ (∃ e, r = .err e)

/-! ## Upload authentication (`auth.rs`)

The Blake3 hash and the Ed25519 key/signature structure checks are
external cryptographic primitives; they are abstracted as an oracle so
that theorems quantify over every possible primitive behaviour, while
the decoding pipeline and the choice of signed message are embedded
from the source. -/

/-- `AuthError` from `auth.rs`. -/
inductive AuthError where
  | invalidBase58 (which : String)
  | invalidPublicKey
  | invalidSignature
  | verificationFailed
  deriving DecidableEq, Repr

/-- The abstracted cryptographic primitives used by
`verify_upload_signature`: `VerifyingKey::from_bytes` success
(`keyValid`), `VerifyingKey::verify` (`verify pk msg sig`), and
`blake3_hash`. -/
structure EdOracle where
  keyValid : List Nat → Bool
  verify : List Nat → List Nat → List Nat → Bool
  blake3 : List Nat → List Nat

/-- The Bitcoin base58 alphabet used by the `bs58` crate. -/
def b58Alphabet : List Char :=
  "123456789ABCDEFGHJKLMNPQRSTUVWXYZabcdefghijkmnopqrstuvwxyz".toList

/-- Digit value of a base58 character, if any. -/
def b58DigitOf (c : Char) : Option Nat :=
  let i := b58Alphabet.indexOf c
  if i < 58 then some i else none

/-- Minimal big-endian base-256 digits of `n` (empty for 0).  The first
argument is fuel, always called with `fuel = n`, which suffices since
the value shrinks by a factor of 256 every step; fuel keeps the
definition structurally recursive and hence kernel-reducible. -/
def natToBEBytesAux : Nat → Nat → List Nat
  | 0, _ => []
  | fuel + 1, n => if n = 0 then [] else natToBEBytesAux fuel (n / 256) ++ [n % 256]

/-- Minimal big-endian byte representation of a natural number. -/
def natToBEBytes (n : Nat) : List Nat := natToBEBytesAux n n

/-- Number of leading zero digits (leading `'1'` characters). -/
def countLeadingZeroDigits : List Nat → Nat
  | [] => 0
  | d :: r => if d = 0 then countLeadingZeroDigits r + 1 else 0

/-- `bs58::decode(...).into_vec()`: base58 big-number decoding with one
leading zero byte per leading `'1'`; fails on characters outside the
alphabet. -/
def bs58Decode (s : String) : Option (List Nat) :=
  match s.toList.mapM b58DigitOf with
  | none => none
  | some ds =>
      some (List.replicate (countLeadingZeroDigits ds) 0 ++
        natToBEBytes (ds.foldl (fun acc d => acc * 58 + d) 0))

/-- `strip_version_prefix` from `auth.rs`: single-byte varint version
(first byte below 0x80), returns the rest. -/
def stripVersionPrefix (bytes : List Nat) : Option (List Nat) :=
  match bytes with
  | [] => none
  | b :: rest => if b < 0x80 then some rest else none

/-- `base58_decode_versioned` from `auth.rs`: decode, strip the version
byte, then accept an exact-length payload or a payload carrying a
4-byte Base58Check checksum, which is stripped without validation. -/
def base58_decode_versioned (encoded : String) (expectedTailLen : Nat) :
    Except AuthError (List Nat) :=
  match bs58Decode encoded with
  | none => .error (.invalidBase58 "decode")
  | some bytes =>
      match stripVersionPrefix bytes with
      | none => .error .invalidPublicKey
      | some payload =>
          if payload.length = expectedTailLen then .ok payload
          else if expectedTailLen = 32 ∧ payload.length = 36 then .ok (payload.take 32)
          else if expectedTailLen = 64 ∧ payload.length = 68 then .ok (payload.take 64)
          else .error (if expectedTailLen = 32 then .invalidPublicKey else .invalidSignature)

/-- `public_key_b58.strip_prefix('P').unwrap_or(public_key_b58)`. -/
def stripLeadingP (s : String) : String :=
  match s.toList with
  | 'P' :: rest => String.mk rest
  | _ => s

/-- `verify_upload_signature` from `auth.rs`: decode the key and the
signature, check their structure, then verify the signature over the
single message `blake3_hash(body)`. -/
def verify_upload_signature (O : EdOracle) (body : List Nat)
    (massaAddress sigB58 pkB58 : String) : Except AuthError Unit :=
  match base58_decode_versioned (stripLeadingP pkB58) 32 with
  | .error _ => .error .invalidPublicKey
  | .ok pubkeyBytes =>
      match base58_decode_versioned sigB58 64 with
      | .error _ => .error .invalidSignature
      | .ok sigBytes =>
          if pubkeyBytes.length ≠ 32 then .error .invalidPublicKey
          else if O.keyValid pubkeyBytes = false then .error .invalidPublicKey
          else if sigBytes.length ≠ 64 then .error .invalidSignature
          else if O.verify pubkeyBytes (O.blake3 body) sigBytes then .ok ()
          else .error .verificationFailed

/-- Lowercase hex digit as an ASCII byte. -/
def hexDigitByte (n : Nat) : Nat := if n < 10 then 48 + n else 87 + n

/-- Modelled from the spec: the message of the claimed "alternate
accepted mode" — the hex text of a digest, as ASCII bytes, to be
re-hashed.  No such mode exists in `auth.rs`; this definition follows
the spec's words so the claim can be stated and compared with the
source's single-message behaviour. -/
def specHexTextBytes (digest : List Nat) : List Nat :=
  digest.flatMap (fun b => [hexDigitByte (b / 16 % 16), hexDigitByte (b % 16)])

/-- Oracle whose signature check accepts exactly the message `[1]`,
with the hash mapping the empty body to `[0]` and everything else to
`[1]`: a signature that is valid over the re-hashed hex text of the
body digest but not over the body digest itself. -/
def oracleAltOnly : EdOracle :=
  ⟨fun _ => true,
   fun _ msg _ => decide (msg = [1]),
   fun input => if input = [] then [0] else [1]⟩

/-- Oracle that accepts every key and signature. -/
def oracleAcceptAll : EdOracle :=
  ⟨fun _ => true, fun _ _ _ => true, fun _ => [0]⟩

/-! ### Storage lemmas -/

theorem sanitizeStep_allowed (c : Char) :
    allowedChar (if allowedChar c then c else '_') = true := by
  by_cases h : allowedChar c = true
  · rw [if_pos h]
    exact h
  · rw [if_neg h]
    decide

theorem chooseId_none (freshId : String) : chooseId none freshId = freshId := rfl

theorem chooseId_empty (hint freshId : String) (hh : sanitize_segment hint = "") :
    chooseId (some hint) freshId = freshId := by
  unfold chooseId
  simp [Option.filter, hh]

theorem toList_sanitize (s : String) :
    (sanitize_segment s).toList = s.toList.map (fun c => if allowedChar c then c else '_') := by
  rfl

theorem fsRead_fsWrite_same (fs : FS) (ns name : String) (data : List Nat) :
    fsRead (fsWrite fs ns name data) ns name = some data := by
  induction fs with
  | nil => simp [fsWrite, fsRead]
  | cons e rest ih =>
      by_cases h : e.1 = ns ∧ e.2.1 = name
      · simp [fsWrite, fsRead, h]
      · simp [fsWrite, fsRead, h, ih]

theorem fsRead_fsWrite_other (fs : FS) (ns name ns' name' : String) (data : List Nat)
    (h : ¬(ns = ns' ∧ name = name')) :
    fsRead (fsWrite fs ns' name' data) ns name = fsRead fs ns name := by
  induction fs with
  | nil =>
      have h' : ¬(ns' = ns ∧ name' = name) := by tauto
      simp [fsWrite, fsRead, h']
  | cons e rest ih =>
      by_cases he : e.1 = ns' ∧ e.2.1 = name'
      · have h' : ¬(e.1 = ns ∧ e.2.1 = name) := by
          rintro ⟨h1, h2⟩
          exact h ⟨by rw [← h1, he.1], by rw [← h2, he.2]⟩
        simp [fsWrite, fsRead, he, h']
        have h'' : ¬(ns' = ns ∧ name' = name) := by tauto
        simp [h'']
      · simp [fsWrite, fsRead, he, ih]

theorem total_size_fsWrite_le (fs : FS) (ns name : String) (data : List Nat) :
    total_size (fsWrite fs ns name data) ≤ total_size fs + data.length := by
  induction fs with
  | nil => simp [fsWrite, total_size]
  | cons e rest ih =>
      by_cases h : e.1 = ns ∧ e.2.1 = name
      · simp [fsWrite, total_size, h]
        omega
      · simp only [fsWrite, h, if_false, total_size, List.map_cons, List.sum_cons]
        have := ih
        simp only [total_size] at this
        omega

/-! ### Claim theorems: storage -/

/-- C7: `sanitize_segment` is idempotent and its output stays inside the
allowed alphabet (ASCII alphanumerics, dash, underscore). -/
theorem sanitize_idempotent_alphabet (s : String) :
    sanitize_segment (sanitize_segment s) = sanitize_segment s ∧
    ∀ c ∈ (sanitize_segment s).toList, allowedChar c = true := by
  constructor
  · show String.mk _ = String.mk _
    rw [toList_sanitize, List.map_map]
    congr 1
    apply List.map_congr_left
    intro c _
    show (if allowedChar (if allowedChar c then c else '_') then _ else _) = _
    rw [sanitizeStep_allowed]
    simp
  · intro c hc
    rw [toList_sanitize] at hc
    obtain ⟨d, _, rfl⟩ := List.mem_map.mp hc
    exact sanitizeStep_allowed d

theorem sanitize_idempotent_alphabet_witness :
    sanitize_segment (sanitize_segment "a/b c") = sanitize_segment "a/b c" ∧
    allowedChar 'a' = true := by
  refine ⟨(sanitize_idempotent_alphabet "a/b c").1, ?_⟩
  exact (sanitize_idempotent_alphabet "a/b c").2 'a' (by decide)

/-- C2: a successful `put(namespace, None, bytes, 1, None)` followed by
`get(namespace, id)` on the returned id yields the original bytes.
`fresh` is the generated uuid string; uuids are non-empty and consist of
hex digits and dashes, so they are fixed by sanitization. -/
theorem put_get_roundtrip (limit : Nat) (fs : FS) (ns : String) (data : List Nat)
    (fresh : String) (hfix : sanitize_segment fresh = fresh) (hne : fresh ≠ "")
    (id : String) (fs' : FS)
    (h : put limit fs ns none data 1 none fresh = .ok (id, fs')) :
    get fs' ns id = .ok data := by
  unfold put at h
  rw [chooseId_none] at h
  by_cases hq : Nat.min (total_size fs + data.length) u64Max > limit
  · rw [if_pos hq] at h
    exact absurd h (by simp)
  · rw [if_neg hq] at h
    by_cases hns : sanitize_segment ns = ""
    · rw [if_pos hns] at h
      exact absurd h (by simp)
    · rw [if_neg hns] at h
      injection h with h
      injection h with hid hfs
      subst hid
      subst hfs
      unfold get
      rw [hfix]
      have hcond : ¬(sanitize_segment ns = "" ∨ fresh = "") := by
        rintro (h1 | h2)
        · exact hns h1
        · exact hne h2
      simp only [hcond, if_false]
      have hmeta : ¬(sanitize_segment ns = sanitize_segment ns ∧ fresh = fresh ++ ".meta") := by
        rintro ⟨-, h2⟩
        have hlen : fresh.length = fresh.length + ".meta".length := by
          conv_lhs => rw [h2]
          exact String.length_append fresh ".meta"
        have h5 : (".meta" : String).length = 5 := rfl
        omega
      rw [fsRead_fsWrite_other _ _ _ _ _ _ hmeta, fsRead_fsWrite_same]

theorem put_get_roundtrip_witness :
    get (runPuts 100 [⟨"default", none, [7, 8], 1, none, "abc-1"⟩]) "default" "abc-1"
      = .ok [7, 8] := by
  exact put_get_roundtrip 100 [] "default" [7, 8] "abc-1" (by decide) (by decide)
    "abc-1" _ (by rfl)

/-- C9: an `id_hint` that sanitizes to the empty string is discarded by
the `.filter(|s| !s.is_empty())` step, so `put` behaves exactly as if no
hint had been supplied and, when the quota and namespace checks pass,
returns the freshly generated id. -/
theorem put_empty_id_hint_like_none (limit : Nat) (fs : FS) (ns hint : String)
    (data : List Nat) (minRep : Nat) (upl : Option String) (fresh : String)
    (hh : sanitize_segment hint = "") :
    put limit fs ns (some hint) data minRep upl fresh
      = put limit fs ns none data minRep upl fresh ∧
    (Nat.min (total_size fs + data.length) u64Max ≤ limit → sanitize_segment ns ≠ "" →
      ∃ fs', put limit fs ns (some hint) data minRep upl fresh = .ok (fresh, fs')) := by
  have hch : chooseId (some hint) fresh = chooseId none fresh := by
    rw [chooseId_empty hint fresh hh, chooseId_none]
  constructor
  · unfold put
    rw [hch]
  · intro hq hns
    unfold put
    rw [hch, chooseId_none]
    have hq' : ¬ Nat.min (total_size fs + data.length) u64Max > limit := by omega
    simp only [hq', if_false, hns, if_false]
    exact ⟨_, rfl⟩

theorem put_empty_id_hint_like_none_witness :
    put 100 [] "default" (some "") [1] 1 none "fresh-9"
      = put 100 [] "default" none [1] 1 none "fresh-9" ∧
    ∃ fs', put 100 [] "default" (some "") [1] 1 none "fresh-9" = .ok ("fresh-9", fs') := by
  refine ⟨(put_empty_id_hint_like_none 100 [] "default" "" [1] 1 none "fresh-9" (by rfl)).1, ?_⟩
  exact (put_empty_id_hint_like_none 100 [] "default" "" [1] 1 none "fresh-9" (by rfl)).2
    (by decide) (by decide)

/-- C1 counterexample: with a ceiling of 0 bytes, a single `put` of an
empty payload is admitted (0 payload bytes fit), but the `.meta` sidecar
written alongside makes `total_size()` = 21 > 0: the ceiling is
exceeded after a sequence of sequential puts. -/
theorem quota_ceiling_counterexample :
    ¬ (total_size (runPuts 0 [⟨"default", none, [], 1, none, "id0"⟩]) ≤ 0) := by
  decide

/-- C1 (amended): a put whose payload would push `total_size()` strictly
over the ceiling is rejected with the quota error before any file is
written (a rejected put leaves the store unchanged), and the rejection
happens exactly in that case; an accepted put satisfies the payload
admission check, but may leave `total_size()` above the ceiling by at
most the byte length of the `.meta` sidecar it writes. -/
theorem quota_put_amended (limit : Nat) (reqs : List PutReq) (r : PutReq)
    (hov : total_size (runPuts limit reqs) + r.data.length < 2 ^ 64) :
    ((put limit (runPuts limit reqs) r.namespace_ r.idHint r.data r.minReplication
        r.uploaderAddress r.freshId = .error .quotaExceeded) ↔
      total_size (runPuts limit reqs) + r.data.length > limit) ∧
    (∀ id fs', put limit (runPuts limit reqs) r.namespace_ r.idHint r.data r.minReplication
        r.uploaderAddress r.freshId = .ok (id, fs') →
      total_size (runPuts limit reqs) + r.data.length ≤ limit ∧
      total_size fs' ≤ limit + (strBytes (metaJson r.minReplication r.uploaderAddress)).length) ∧
    (∀ e, put limit (runPuts limit reqs) r.namespace_ r.idHint r.data r.minReplication
        r.uploaderAddress r.freshId = .error e →
      runPuts limit (reqs ++ [r]) = runPuts limit reqs) := by
  set fs := runPuts limit reqs with hfs
  have hmin : Nat.min (total_size fs + r.data.length) u64Max = total_size fs + r.data.length :=
    Nat.min_eq_left (by unfold u64Max; omega)
  refine ⟨?_, ?_, ?_⟩
  · constructor
    · intro h
      unfold put at h
      rw [hmin] at h
      by_cases hq : total_size fs + r.data.length > limit
      · exact hq
      · rw [if_neg hq] at h
        by_cases hns : sanitize_segment r.namespace_ = ""
        · rw [if_pos hns] at h
          exact absurd h (by simp)
        · rw [if_neg hns] at h
          exact absurd h (by simp)
    · intro hq
      unfold put
      rw [hmin, if_pos hq]
  · intro id fs' h
    unfold put at h
    rw [hmin] at h
    by_cases hq : total_size fs + r.data.length > limit
    · rw [if_pos hq] at h
      exact absurd h (by simp)
    · refine ⟨by omega, ?_⟩
      rw [if_neg hq] at h
      by_cases hns : sanitize_segment r.namespace_ = ""
      · rw [if_pos hns] at h
        exact absurd h (by simp)
      · rw [if_neg hns] at h
        injection h with h
        injection h with _ hfs'
        subst hfs'
        calc total_size (fsWrite (fsWrite fs (sanitize_segment r.namespace_) _ r.data)
                (sanitize_segment r.namespace_) _
                (strBytes (metaJson r.minReplication r.uploaderAddress)))
            ≤ total_size (fsWrite fs (sanitize_segment r.namespace_) _ r.data)
                + (strBytes (metaJson r.minReplication r.uploaderAddress)).length :=
              total_size_fsWrite_le _ _ _ _
          _ ≤ total_size fs + r.data.length
                + (strBytes (metaJson r.minReplication r.uploaderAddress)).length := by
              have := total_size_fsWrite_le fs (sanitize_segment r.namespace_)
                (chooseId r.idHint r.freshId) r.data
              omega
          _ ≤ limit + (strBytes (metaJson r.minReplication r.uploaderAddress)).length := by
              omega
  · intro e h
    unfold runPuts
    rw [List.foldl_append]
    simp only [List.foldl_cons, List.foldl_nil]
    rw [← runPuts, ← hfs, h]

theorem quota_put_amended_witness :
    put 0 (runPuts 0 []) "default" none [1] 1 none "idA" = .error .quotaExceeded ∧
    total_size (runPuts 30 []) + 3 ≤ 30 := by
  constructor
  · exact ((quota_put_amended 0 [] ⟨"default", none, [1], 1, none, "idA"⟩ (by decide)).1).mpr
      (by decide)
  · exact ((quota_put_amended 30 [] ⟨"default", none, [1, 2, 3], 1, none, "idB"⟩
      (by decide)).2.1 "idB" (runPuts 30 [⟨"default", none, [1, 2, 3], 1, none, "idB"⟩])
      (by rfl)).1

/-! ### P2P listen-address lemmas -/

theorem runFromListen_spec (events : List String) (st : P2pLocal) :
    (events.foldl handleNewListenAddr st).listenAddrs = st.listenAddrs ++ events ∧
    (st.discovered.Nodup → (events.foldl handleNewListenAddr st).discovered.Nodup) ∧
    ∀ a, a ∈ (events.foldl handleNewListenAddr st).discovered ↔
      (a ∈ st.discovered ∨ (a ∈ events ∧ is_localhost_multiaddr a = false)) := by
  induction events generalizing st with
  | nil => simp
  | cons e rest ih =>
      obtain ⟨ih1, ih2, ih3⟩ := ih (handleNewListenAddr st e)
      have hstep_listen : (handleNewListenAddr st e).listenAddrs = st.listenAddrs ++ [e] := by
        unfold handleNewListenAddr
        by_cases hl : is_localhost_multiaddr e = false
        · by_cases hm : e ∈ st.discovered
          · simp [hl, hm]
          · simp [hl, hm]
        · simp [hl]
      have hstep_nodup : st.discovered.Nodup → (handleNewListenAddr st e).discovered.Nodup := by
        intro hnd
        unfold handleNewListenAddr
        by_cases hl : is_localhost_multiaddr e = false
        · by_cases hm : e ∈ st.discovered
          · simpa [hl, hm]
          · simp only [hl, if_true, hm, if_false]
            exact List.Nodup.append hnd (List.nodup_singleton e)
              (by simpa [List.disjoint_singleton] using hm)
        · simpa [hl]
      have hstep_mem : ∀ a, a ∈ (handleNewListenAddr st e).discovered ↔
          (a ∈ st.discovered ∨ (a = e ∧ is_localhost_multiaddr a = false)) := by
        intro a
        unfold handleNewListenAddr
        by_cases hl : is_localhost_multiaddr e = false
        · by_cases hm : e ∈ st.discovered
          · simp only [hl, if_true, hm, if_true]
            constructor
            · exact fun h => Or.inl h
            · rintro (h | ⟨rfl, -⟩)
              · exact h
              · exact hm
          · simp only [hl, if_true, hm, if_false, List.mem_append, List.mem_singleton]
            constructor
            · rintro (h | rfl)
              · exact Or.inl h
              · exact Or.inr ⟨rfl, hl⟩
            · rintro (h | ⟨rfl, -⟩)
              · exact Or.inl h
              · exact Or.inr rfl
        · simp only [hl, if_false]
          constructor
          · exact fun h => Or.inl h
          · rintro (h | ⟨rfl, hcontra⟩)
            · exact h
            · exact absurd hcontra hl
      refine ⟨?_, ?_, ?_⟩
      · rw [List.foldl_cons, ih1, hstep_listen, List.append_assoc]
        rfl
      · intro hnd
        exact ih2 (hstep_nodup hnd)
      · intro a
        rw [List.foldl_cons, ih3 a, hstep_mem a]
        constructor
        · rintro ((h | ⟨rfl, hl⟩) | ⟨hr, hl⟩)
          · exact Or.inl h
          · exact Or.inr ⟨List.mem_cons_self _ _, hl⟩
          · exact Or.inr ⟨List.mem_cons_of_mem _ hr, hl⟩
        · rintro (h | ⟨hmem, hl⟩)
          · exact Or.inl (Or.inl h)
          · rcases List.mem_cons.mp hmem with rfl | hr
            · exact Or.inl (Or.inr ⟨rfl, hl⟩)
            · exact Or.inr ⟨hr, hl⟩

/-! ### Claim theorems: P2P listen addresses -/

/-- C6: processing `NewListenAddr` events from the initial empty state
always appends every address to the local listen-address list, keeps the
shared discovered set duplicate-free, and an address ends up in the
discovered set exactly when it occurred and is not a localhost
(loopback/unspecified, per `is_localhost_multiaddr`) multiaddr. -/
theorem new_listen_addr_spec (events : List String) :
    (runNewListenAddrs events).listenAddrs = events ∧
    (runNewListenAddrs events).discovered.Nodup ∧
    ∀ a, a ∈ (runNewListenAddrs events).discovered ↔
      (a ∈ events ∧ is_localhost_multiaddr a = false) := by
  obtain ⟨h1, h2, h3⟩ := runFromListen_spec events ⟨[], []⟩
  refine ⟨by simpa using h1, h2 (List.nodup_nil), ?_⟩
  intro a
  rw [runNewListenAddrs, h3 a]
  simp

/-! ### Discovery-loop lemmas -/

theorem DiscExtend.refl (selfAddr : String) (st : DiscState) : DiscExtend selfAddr st st :=
  ⟨[], by simp, by simp, List.nodup_nil, by simp, by simp⟩

theorem DiscExtend.trans {selfAddr : String} {st st' st'' : DiscState}
    (h1 : DiscExtend selfAddr st st') (h2 : DiscExtend selfAddr st' st'') :
    DiscExtend selfAddr st st'' := by
  obtain ⟨π1, k1, t1, n1, f1, s1⟩ := h1
  obtain ⟨π2, k2, t2, n2, f2, s2⟩ := h2
  refine ⟨π1 ++ π2, ?_, ?_, ?_, ?_, ?_⟩
  · rw [k2, k1, List.map_append, List.append_assoc]
  · rw [t2, t1, List.append_assoc]
  · rw [List.map_append]
    refine List.Nodup.append n1 n2 ?_
    intro a ha1 ha2
    have := f2 a ha2
    rw [k1] at this
    exact this (List.mem_append_right _ ha1)
  · intro a ha
    rw [List.map_append] at ha
    rcases List.mem_append.mp ha with h | h
    · exact f1 a h
    · intro hmem
      exact f2 a h (by rw [k1]; exact List.mem_append_left _ hmem)
  · intro pr hpr
    rcases List.mem_append.mp hpr with h | h
    · exact s1 pr h
    · exact s2 pr h

theorem discDialStep_extend (selfAddr providerAddr : String)
    (hne : providerAddr ≠ selfAddr) (st : DiscState) (addr : String) :
    DiscExtend selfAddr st (discDialStep providerAddr st addr) := by
  unfold discDialStep
  by_cases h : addr ≠ "" ∧ addr ∉ st.1
  · rw [if_pos h]
    exact ⟨[(providerAddr, addr)], by simp, by simp, by simp, by simpa using h.2,
      by simpa using hne⟩
  · rw [if_neg h]
    exact DiscExtend.refl selfAddr st

theorem foldl_discDialStep_extend (selfAddr providerAddr : String)
    (hne : providerAddr ≠ selfAddr) (addrs : List String) (st : DiscState) :
    DiscExtend selfAddr st (addrs.foldl (discDialStep providerAddr) st) := by
  induction addrs generalizing st with
  | nil => exact DiscExtend.refl selfAddr st
  | cons a rest ih =>
      rw [List.foldl_cons]
      exact DiscExtend.trans (discDialStep_extend selfAddr providerAddr hne st a)
        (ih (discDialStep providerAddr st a))

theorem procProvider_extend (selfAddr : String) (st : DiscState) (p : Provider) :
    DiscExtend selfAddr st (procProvider selfAddr st p) := by
  unfold procProvider
  by_cases h : selfAddr = p.address
  · rw [if_pos h]
    exact DiscExtend.refl selfAddr st
  · rw [if_neg h]
    exact foldl_discDialStep_extend selfAddr p.address (fun he => h he.symm) p.p2pAddrs st

theorem procCycle_extend (selfAddr : String) (st : DiscState) (providers : List Provider) :
    DiscExtend selfAddr st (procCycle selfAddr st providers) := by
  unfold procCycle
  induction providers generalizing st with
  | nil => exact DiscExtend.refl selfAddr st
  | cons p rest ih =>
      rw [List.foldl_cons]
      exact DiscExtend.trans (procProvider_extend selfAddr st p)
        (ih (procProvider selfAddr st p))

theorem foldl_procCycle_extend (selfAddr : String) (cycles : List (List Provider))
    (st : DiscState) :
    DiscExtend selfAddr st (cycles.foldl (procCycle selfAddr) st) := by
  induction cycles generalizing st with
  | nil => exact DiscExtend.refl selfAddr st
  | cons c rest ih =>
      rw [List.foldl_cons]
      exact DiscExtend.trans (procCycle_extend selfAddr st c) (ih (procCycle selfAddr st c))

/-! ### Claim theorems: discovery loop -/

/-- C5: across any sequence of discovery cycles, no dial is issued on
behalf of a provider whose identity is this node's own; the full dial
trace contains each address at most once; the known set is exactly the
set of dialed addresses (an address is dialed only when absent and is
inserted when dialed); and the known set only grows from one prefix of
the run to the whole run. -/
theorem discovery_dial_once_no_self (selfAddr : String) (cycles : List (List Provider)) :
    (∀ pr ∈ (runDiscovery selfAddr cycles).2, pr.1 ≠ selfAddr) ∧
    ((runDiscovery selfAddr cycles).2.map Prod.snd).Nodup ∧
    (runDiscovery selfAddr cycles).1 = (runDiscovery selfAddr cycles).2.map Prod.snd ∧
    ∀ n, ∀ a ∈ (runDiscovery selfAddr (cycles.take n)).1, a ∈ (runDiscovery selfAddr cycles).1 := by
  obtain ⟨π, k, t, nd, -, hself⟩ := foldl_procCycle_extend selfAddr cycles ([], [])
  rw [runDiscovery] at *
  refine ⟨?_, ?_, ?_, ?_⟩
  · intro pr hpr
    rw [t] at hpr
    exact hself pr (by simpa using hpr)
  · rw [t]
    simpa using nd
  · rw [k, t]
    simp
  · intro n a ha
    have hsplit : cycles.foldl (procCycle selfAddr) ([], []) =
        (cycles.drop n).foldl (procCycle selfAddr)
          ((cycles.take n).foldl (procCycle selfAddr) ([], [])) := by
      rw [← List.foldl_append, List.take_append_drop]
    obtain ⟨π', k', -, -, -, -⟩ :=
      foldl_procCycle_extend selfAddr (cycles.drop n)
        ((cycles.take n).foldl (procCycle selfAddr) ([], []))
    rw [hsplit, k']
    exact List.mem_append_left _ ha

theorem discovery_dial_once_no_self_witness :
    (∀ pr ∈ (runDiscovery "self" [[⟨"self", ["a1"]⟩, ⟨"other", ["a1", "a2"]⟩],
        [⟨"other", ["a2", "a3"]⟩]]).2, pr.1 ≠ "self") ∧
    (runDiscovery "self" [[⟨"self", ["a1"]⟩, ⟨"other", ["a1", "a2"]⟩],
        [⟨"other", ["a2", "a3"]⟩]]).1 = ["a1", "a2", "a3"] := by
  refine ⟨(discovery_dial_once_no_self "self" _).1, ?_⟩
  rfl

theorem setEqStr_iff (l1 l2 : List String) :
    setEqStr l1 l2 = true ↔ ∀ a, a ∈ l1 ↔ a ∈ l2 := by
  unfold setEqStr
  rw [Bool.and_eq_true, List.all_eq_true, List.all_eq_true]
  constructor
  · rintro ⟨h1, h2⟩ a
    constructor
    · intro ha
      simpa using h1 a ha
    · intro ha
      simpa using h2 a ha
  · intro h
    constructor
    · intro a ha
      simpa using (h a).mp ha
    · intro a ha
      simpa using (h a).mpr ha

/-! ### Claim theorems: reconciliation -/

/-- C4: for the already-registered node, the reconciliation step issues
zero write operations exactly when the desired endpoint equals the
published one as a string and the desired address list equals the
published one as a set; when either component differs it issues exactly
one update operation. -/
theorem reconcile_idempotent (current : ProviderMetadata) (endpoint : String)
    (addrs : List String) :
    ((current.endpoint = endpoint ∧ ∀ a, a ∈ current.p2pAddrs ↔ a ∈ addrs) →
      reconcileUpdateOps (.ok current) endpoint addrs = 0) ∧
    ((current.endpoint ≠ endpoint ∨ ¬ (∀ a, a ∈ current.p2pAddrs ↔ a ∈ addrs)) →
      reconcileUpdateOps (.ok current) endpoint addrs = 1) := by
  constructor
  · rintro ⟨he, hs⟩
    have h1 : decide (current.endpoint ≠ endpoint) = false := by simp [he]
    have h2 : setEqStr current.p2pAddrs addrs = true := (setEqStr_iff _ _).mpr hs
    show (if (decide (current.endpoint ≠ endpoint) || !setEqStr current.p2pAddrs addrs) = true
        then 1 else 0) = 0
    rw [h1, h2]
    rfl
  · intro hdiff
    show (if (decide (current.endpoint ≠ endpoint) || !setEqStr current.p2pAddrs addrs) = true
        then 1 else 0) = 1
    rcases hdiff with he | hs
    · have h1 : decide (current.endpoint ≠ endpoint) = true := by simpa using he
      rw [h1]
      rfl
    · have h2 : setEqStr current.p2pAddrs addrs = false := by
        rcases hb : setEqStr current.p2pAddrs addrs with _ | _
        · rfl
        · exact absurd ((setEqStr_iff _ _).mp hb) hs
      rw [h2]
      simp

theorem reconcile_idempotent_witness :
    reconcileUpdateOps (.ok ⟨"http://a:1", ["m1", "m2"]⟩) "http://a:1" ["m2", "m1"] = 0 ∧
    reconcileUpdateOps (.ok ⟨"http://a:1", ["m1"]⟩) "http://a:1" ["m1", "m3"] = 1 := by
  constructor
  · refine (reconcile_idempotent ⟨"http://a:1", ["m1", "m2"]⟩ "http://a:1" ["m2", "m1"]).1
      ⟨rfl, ?_⟩
    intro a
    constructor
    · intro h
      rcases List.mem_cons.mp h with rfl | h'
      · exact List.mem_cons_of_mem _ (List.mem_cons_self _ _)
      · rcases List.mem_cons.mp h' with rfl | h''
        · exact List.mem_cons_self _ _
        · exact absurd h'' (List.not_mem_nil a)
    · intro h
      rcases List.mem_cons.mp h with rfl | h'
      · exact List.mem_cons_of_mem _ (List.mem_cons_self _ _)
      · rcases List.mem_cons.mp h' with rfl | h''
        · exact List.mem_cons_self _ _
        · exact absurd h'' (List.not_mem_nil a)
  · refine (reconcile_idempotent ⟨"http://a:1", ["m1"]⟩ "http://a:1" ["m1", "m3"]).2 (Or.inr ?_)
    intro h
    have := (h "m3").mpr (List.mem_cons_of_mem _ (List.mem_cons_self _ _))
    simp at this

/-! ### Args lemmas -/

theorem nextU32_ok_shape {a : Args} {v : Nat} {a1 : Args}
    (h : nextU32 a = .ok (v, a1)) : a1.data = a.data ∧ a1.offset = a.offset + 4 := by
  unfold nextU32 at h
  split at h
  · exact absurd h (by simp)
  · split at h
    · split at h
      · injection h with h
        injection h with _ h2
        subst h2
        exact ⟨rfl, rfl⟩
      · exact absurd h (by simp)
    · exact absurd h (by simp)
    · exact absurd h (by simp)

theorem nextBytes_ok_shape {a : Args} {bytes : List Nat} {a1 : Args}
    (h : nextBytes a = .ok (bytes, a1)) :
    a1.data = a.data ∧ a.offset + 4 ≤ a1.offset := by
  unfold nextBytes at h
  split at h
  case _ len a2 heq =>
    obtain ⟨hd, ho⟩ := nextU32_ok_shape heq
    split at h
    · exact absurd h (by simp)
    · split at h
      · injection h with h
        injection h with _ h2
        subst h2
        constructor
        · show a2.data = a.data
          exact hd
        · show a.offset + 4 ≤ a2.offset + len
          omega
      · exact absurd h (by simp)
      · exact absurd h (by simp)
  · exact absurd h (by simp)
  · exact absurd h (by simp)

theorem nextString_ok_shape {a : Args} {bytes : List Nat} {a1 : Args}
    (h : nextString a = .ok (bytes, a1)) :
    a1.data = a.data ∧ a.offset + 4 ≤ a1.offset := by
  unfold nextString at h
  split at h
  case _ bytes' a2 heq =>
    split at h
    · injection h with h
      injection h with _ h2
      subst h2
      exact nextBytes_ok_shape heq
    · exact absurd h (by simp)
  · exact absurd h (by simp)
  · exact absurd h (by simp)

theorem le4_length (n : Nat) : (le4 n).length = 4 := rfl

theorem leDecode_le4 (n : Nat) : leDecode (le4 n) = n % 2 ^ 32 := by
  show n % 256 + 256 * (n / 256 % 256 + 256 * (n / 65536 % 256 + 256 * (n / 16777216 % 256
      + 256 * 0))) = n % 2 ^ 32
  have h32 : (2 : Nat) ^ 32 = 4294967296 := by norm_num
  rw [h32]
  omega

theorem sliceRange_at (pre mid tail : List Nat) :
    sliceRange (pre ++ mid ++ tail) pre.length (pre.length + mid.length) = .ok mid := by
  unfold sliceRange
  have hcond : pre.length ≤ pre.length + mid.length ∧
      pre.length + mid.length ≤ (pre ++ mid ++ tail).length := by
    simp only [List.length_append]
    omega
  rw [if_pos hcond]
  have h1 : pre ++ mid ++ tail = pre ++ (mid ++ tail) := List.append_assoc pre mid tail
  have h2 : pre.length + mid.length - pre.length = mid.length := by omega
  rw [h1, List.drop_left, h2, List.take_left]

theorem nextU32_at (pre tail : List Nat) (n : Nat) :
    nextU32 ⟨pre ++ le4 n ++ tail, pre.length⟩
      = .ok (n % 2 ^ 32, ⟨pre ++ le4 n ++ tail, pre.length + 4⟩) := by
  unfold nextU32
  have hlen : (pre ++ le4 n ++ tail).length = pre.length + 4 + tail.length := by
    simp only [List.length_append, le4_length]
  have hguard : ¬ (pre.length + 4 > (pre ++ le4 n ++ tail).length) := by
    rw [hlen]
    omega
  rw [if_neg hguard]
  have hslice : sliceRange (pre ++ le4 n ++ tail) pre.length (pre.length + 4)
      = .ok (le4 n) := by
    have := sliceRange_at pre (le4 n) tail
    rwa [le4_length] at this
  rw [hslice]
  simp only []
  rw [if_pos (le4_length n), leDecode_le4]

theorem nextBytes_at (pre s tail : List Nat) (hlen : s.length < 2 ^ 32) :
    nextBytes ⟨pre ++ (le4 s.length ++ (s ++ tail)), pre.length⟩
      = .ok (s, ⟨pre ++ (le4 s.length ++ (s ++ tail)), pre.length + 4 + s.length⟩) := by
  have hshape : pre ++ (le4 s.length ++ (s ++ tail)) = pre ++ le4 s.length ++ (s ++ tail) := by
    rw [List.append_assoc]
  rw [hshape]
  unfold nextBytes
  rw [nextU32_at pre (s ++ tail) s.length]
  have hmod : s.length % 2 ^ 32 = s.length := Nat.mod_eq_of_lt hlen
  rw [hmod]
  simp only []
  have hdlen : (pre ++ le4 s.length ++ (s ++ tail)).length
      = pre.length + 4 + s.length + tail.length := by
    simp only [List.length_append, le4_length]
    omega
  have hguard : ¬ (pre.length + 4 + s.length > (pre ++ le4 s.length ++ (s ++ tail)).length) := by
    rw [hdlen]
    omega
  rw [if_neg hguard]
  have hplen : (pre ++ le4 s.length).length = pre.length + 4 := by
    simp only [List.length_append, le4_length]
  have hregroup : pre ++ le4 s.length ++ (s ++ tail) = (pre ++ le4 s.length) ++ s ++ tail := by
    rw [List.append_assoc (pre ++ le4 s.length) s tail]
  have hslice : sliceRange (pre ++ le4 s.length ++ (s ++ tail)) (pre.length + 4)
      (pre.length + 4 + s.length) = .ok s := by
    have := sliceRange_at (pre ++ le4 s.length) s tail
    rw [hplen] at this
    rwa [hregroup]
  rw [hslice]

theorem nextString_at (pre s tail : List Nat) (hval : validUtf8 s = true)
    (hlen : s.length < 2 ^ 32) :
    nextString ⟨pre ++ (le4 s.length ++ (s ++ tail)), pre.length⟩
      = .ok (s, ⟨pre ++ (le4 s.length ++ (s ++ tail)), pre.length + 4 + s.length⟩) := by
  unfold nextString
  rw [nextBytes_at pre s tail hlen]
  simp only []
  rw [if_pos hval]

theorem nextStringArrayLoop_exit (endPos : Nat) (a : Args) (acc : List (List Nat))
    (h : ¬ a.offset < endPos) :
    nextStringArrayLoop endPos a acc = .ok (acc, a) := by
  unfold nextStringArrayLoop
  rw [dif_neg h]

theorem nextStringArrayLoop_step (endPos : Nat) (a : Args) (acc : List (List Nat))
    (s : List Nat) (a1 : Args) (h : a.offset < endPos) (hs : nextString a = .ok (s, a1)) :
    nextStringArrayLoop endPos a acc = nextStringArrayLoop endPos a1 (acc ++ [s]) := by
  conv_lhs => unfold nextStringArrayLoop
  rw [dif_pos h]
  split
  case _ s' a1' heq =>
    rw [hs] at heq
    injection heq with heq
    injection heq with h1 h2
    rw [h1, h2]
  case _ e heq =>
    rw [hs] at heq
    exact absurd heq (by simp)
  case _ heq =>
    rw [hs] at heq
    exact absurd heq (by simp)

theorem nextStringArrayLoop_errStep (endPos : Nat) (a : Args) (acc : List (List Nat))
    (e : ArgsError) (h : a.offset < endPos) (hs : nextString a = .err e) :
    nextStringArrayLoop endPos a acc = .err e := by
  conv_lhs => unfold nextStringArrayLoop
  rw [dif_pos h]
  split
  case _ s' a1' heq =>
    rw [hs] at heq
    exact absurd heq (by simp)
  case _ e' heq =>
    rw [hs] at heq
    injection heq with heq
    rw [heq]
  case _ heq =>
    rw [hs] at heq
    exact absurd heq (by simp)

theorem encStrings_mem_bound {s : List Nat} {values : List (List Nat)} (h : s ∈ values) :
    s.length + 4 ≤ (encStrings values).length := by
  induction values with
  | nil => exact absurd h (List.not_mem_nil s)
  | cons t vs ih =>
      rw [encStrings]
      simp only [List.length_append, le4_length]
      rcases List.mem_cons.mp h with rfl | hmem
      · omega
      · have := ih hmem
        omega

theorem nextStringArrayLoop_roundtrip (values : List (List Nat)) :
    ∀ (pre tail : List Nat) (acc : List (List Nat)),
    (∀ s ∈ values, validUtf8 s = true ∧ s.length < 2 ^ 32) →
    nextStringArrayLoop (pre.length + (encStrings values).length)
        ⟨pre ++ (encStrings values ++ tail), pre.length⟩ acc
      = .ok (acc ++ values,
          ⟨pre ++ (encStrings values ++ tail), pre.length + (encStrings values).length⟩) := by
  induction values with
  | nil =>
      intro pre tail acc _
      rw [nextStringArrayLoop_exit]
      · simp [encStrings]
      · show ¬ pre.length < pre.length + (encStrings []).length
        simp [encStrings]
  | cons s vs ih =>
      intro pre tail acc hv
      obtain ⟨hval, hslen⟩ := hv s (List.mem_cons_self s vs)
      have henc : encStrings (s :: vs) = le4 s.length ++ s ++ encStrings vs := rfl
      have hdata : pre ++ (encStrings (s :: vs) ++ tail)
          = pre ++ (le4 s.length ++ (s ++ (encStrings vs ++ tail))) := by
        rw [henc]
        simp [List.append_assoc]
      have hlt : pre.length < pre.length + (encStrings (s :: vs)).length := by
        rw [henc]
        simp only [List.length_append, le4_length]
        omega
      rw [hdata]
      rw [nextStringArrayLoop_step _ _ acc s
          ⟨pre ++ (le4 s.length ++ (s ++ (encStrings vs ++ tail))), pre.length + 4 + s.length⟩
          hlt (nextString_at pre s (encStrings vs ++ tail) hval hslen)]
      have hpre2 : (pre ++ (le4 s.length ++ s)).length = pre.length + 4 + s.length := by
        simp only [List.length_append, le4_length]
        omega
      have hoff : pre.length + 4 + s.length = (pre ++ (le4 s.length ++ s)).length := hpre2.symm
      have hregroup : pre ++ (le4 s.length ++ (s ++ (encStrings vs ++ tail)))
          = (pre ++ (le4 s.length ++ s)) ++ (encStrings vs ++ tail) := by
        simp [List.append_assoc]
      have hend : pre.length + (encStrings (s :: vs)).length
          = (pre ++ (le4 s.length ++ s)).length + (encStrings vs).length := by
        rw [hpre2, henc]
        simp only [List.length_append, le4_length]
        omega
      rw [hregroup, hoff, hend]
      rw [ih (pre ++ (le4 s.length ++ s)) tail (acc ++ [s])
        (fun t ht => hv t (List.mem_cons_of_mem s ht))]
      simp

/-! ### Claim theorems: Args string-array roundtrip -/

/-- C8: `add_string_array` writes a u32 little-endian total byte length
followed by the concatenation of u32-length-prefixed UTF-8 strings, and
`next_string_array`, consuming until that declared total is exhausted,
decodes the encoding back to exactly the original list.  Strings are
represented by their UTF-8 bytes (hypothesis `hv`); lengths fit in u32
(hypothesis `hlen`, forced by the u32 prefixes of the wire format). -/
theorem string_array_roundtrip (values : List (List Nat))
    (hv : ∀ s ∈ values, validUtf8 s = true)
    (hlen : (encStrings values).length < 2 ^ 32) :
    (add_string_array Args.new values).data
      = le4 (encStrings values).length ++ encStrings values ∧
    nextStringArray (Args.from_bytes (Args.into_bytes (add_string_array Args.new values)))
      = .ok (values,
          ⟨le4 (encStrings values).length ++ encStrings values,
            4 + (encStrings values).length⟩) := by
  constructor
  · show [] ++ le4 (encStrings values).length ++ encStrings values = _
    simp
  · show nextStringArray ⟨[] ++ le4 (encStrings values).length ++ encStrings values, 0⟩ = _
    have hdata : ([] : List Nat) ++ le4 (encStrings values).length ++ encStrings values
        = ([] : List Nat) ++ le4 (encStrings values).length ++ (encStrings values ++ []) := by
      simp
    rw [hdata]
    unfold nextStringArray
    have hu32 := nextU32_at ([] : List Nat) (encStrings values ++ []) (encStrings values).length
    rw [show (([] : List Nat)).length = 0 from rfl] at hu32
    rw [hu32]
    have hmod : (encStrings values).length % 2 ^ 32 = (encStrings values).length :=
      Nat.mod_eq_of_lt hlen
    rw [hmod]
    simp only []
    have hdlen : (([] : List Nat) ++ le4 (encStrings values).length ++ (encStrings values ++ [])).length
        = 4 + (encStrings values).length := by
      simp [List.length_append, le4_length]
    have hguard : ¬ (0 + 4 + (encStrings values).length
        > (([] : List Nat) ++ le4 (encStrings values).length ++ (encStrings values ++ [])).length) := by
      rw [hdlen]
      omega

    rw [if_neg hguard]
    have hpre : (([] : List Nat) ++ le4 (encStrings values).length).length = 0 + 4 := by
      simp [le4_length]
    have hregroup : ([] : List Nat) ++ le4 (encStrings values).length ++ (encStrings values ++ [])
        = (([] : List Nat) ++ le4 (encStrings values).length) ++ (encStrings values ++ []) := by
      simp
    have hloop := nextStringArrayLoop_roundtrip values
      (([] : List Nat) ++ le4 (encStrings values).length) [] []
      (fun s hs => ⟨hv s hs, by
        have := encStrings_mem_bound hs
        omega⟩)
    rw [hpre] at hloop
    rw [hregroup, hloop]
    simp

theorem string_array_roundtrip_witness :
    nextStringArray (Args.from_bytes (Args.into_bytes
        (add_string_array Args.new [[111, 110, 101], [116, 119, 111]])))
      = .ok ([[111, 110, 101], [116, 119, 111]],
          ⟨le4 (encStrings [[111, 110, 101], [116, 119, 111]]).length
            ++ encStrings [[111, 110, 101], [116, 119, 111]], 18⟩) := by
  exact (string_array_roundtrip [[111, 110, 101], [116, 119, 111]]
    (by decide) (by decide)).2

/-! ### Decoder totality lemmas -/

theorem nextU32_settles (a : Args) : settles (nextU32 a) := by
  unfold nextU32
  by_cases hg : a.offset + 4 > a.data.length
  · rw [if_pos hg]
    exact Or.inr ⟨_, rfl⟩
  · rw [if_neg hg]
    have hslice : sliceRange a.data a.offset (a.offset + 4)
        = .ok ((a.data.drop a.offset).take (a.offset + 4 - a.offset)) := by
      unfold sliceRange
      rw [if_pos ⟨by omega, by omega⟩]
    rw [hslice]
    simp only []
    have hl : ((a.data.drop a.offset).take (a.offset + 4 - a.offset)).length = 4 := by
      rw [List.length_take, List.length_drop]
      omega
    rw [if_pos hl]
    exact Or.inl ⟨_, rfl⟩

theorem nextU64_settles (a : Args) : settles (nextU64 a) := by
  unfold nextU64
  by_cases hg : a.offset + 8 > a.data.length
  · rw [if_pos hg]
    exact Or.inr ⟨_, rfl⟩
  · rw [if_neg hg]
    have hslice : sliceRange a.data a.offset (a.offset + 8)
        = .ok ((a.data.drop a.offset).take (a.offset + 8 - a.offset)) := by
      unfold sliceRange
      rw [if_pos ⟨by omega, by omega⟩]
    rw [hslice]
    simp only []
    have hl : ((a.data.drop a.offset).take (a.offset + 8 - a.offset)).length = 8 := by
      rw [List.length_take, List.length_drop]
      omega
    rw [if_pos hl]
    exact Or.inl ⟨_, rfl⟩

theorem nextBytes_settles (a : Args) : settles (nextBytes a) := by
  unfold nextBytes
  rcases nextU32_settles a with ⟨⟨len, a1⟩, h⟩ | ⟨e, h⟩
  · rw [h]
    simp only []
    by_cases hg : a1.offset + len > a1.data.length
    · rw [if_pos hg]
      exact Or.inr ⟨_, rfl⟩
    · rw [if_neg hg]
      have hslice : sliceRange a1.data a1.offset (a1.offset + len)
          = .ok ((a1.data.drop a1.offset).take (a1.offset + len - a1.offset)) := by
        unfold sliceRange
        rw [if_pos ⟨by omega, by omega⟩]
      rw [hslice]
      exact Or.inl ⟨_, rfl⟩
  · rw [h]
    exact Or.inr ⟨_, rfl⟩

theorem nextString_settles (a : Args) : settles (nextString a) := by
  unfold nextString
  rcases nextBytes_settles a with ⟨⟨bytes, a1⟩, h⟩ | ⟨e, h⟩
  · rw [h]
    simp only []
    by_cases hval : validUtf8 bytes = true
    · rw [if_pos hval]
      exact Or.inl ⟨_, rfl⟩
    · rw [if_neg hval]
      exact Or.inr ⟨_, rfl⟩
  · rw [h]
    exact Or.inr ⟨_, rfl⟩

theorem nextStringArrayLoop_settles (endPos : Nat) :
    ∀ (n : Nat) (a : Args) (acc : List (List Nat)), endPos - a.offset ≤ n →
    settles (nextStringArrayLoop endPos a acc) := by
  intro n
  induction n with
  | zero =>
      intro a acc h0
      rw [nextStringArrayLoop_exit endPos a acc (by omega)]
      exact Or.inl ⟨_, rfl⟩
  | succ n ih =>
      intro a acc h
      by_cases hlt : a.offset < endPos
      · rcases nextString_settles a with ⟨⟨s, a1⟩, hs⟩ | ⟨e, hs⟩
        · rw [nextStringArrayLoop_step endPos a acc s a1 hlt hs]
          apply ih
          have := (nextString_ok_shape hs).2
          omega
        · rw [nextStringArrayLoop_errStep endPos a acc e hlt hs]
          exact Or.inr ⟨_, rfl⟩
      · rw [nextStringArrayLoop_exit endPos a acc hlt]
        exact Or.inl ⟨_, rfl⟩

/-! ### Claim theorems: decoder totality -/

/-- C10: every `Args` decoding operation is total on arbitrary buffers
and offsets: it returns a value or a reported `ArgsError` (`OutOfRange`
or `InvalidUtf8`), and the panic outcome — an out-of-bounds slice or a
failed `unwrap` — is never reached. -/
theorem args_decoders_total (a : Args) :
    settles (nextU32 a) ∧ settles (nextU64 a) ∧ settles (nextBytes a) ∧
    settles (nextString a) ∧ settles (nextStringArray a) := by
  refine ⟨nextU32_settles a, nextU64_settles a, nextBytes_settles a, nextString_settles a, ?_⟩
  unfold nextStringArray
  rcases nextU32_settles a with ⟨⟨total, a1⟩, h⟩ | ⟨e, h⟩
  · rw [h]
    simp only []
    by_cases hg : a1.offset + total > a1.data.length
    · rw [if_pos hg]
      exact Or.inr ⟨_, rfl⟩
    · rw [if_neg hg]
      exact nextStringArrayLoop_settles (a1.offset + total) (a1.offset + total) a1 [] (by omega)
  · rw [h]
    exact Or.inr ⟨_, rfl⟩

/-! ### Upload-authentication lemmas -/

theorem base58dv_ok_length {s : String} {e : Nat} {raw : List Nat}
    (h : base58_decode_versioned s e = .ok raw) : raw.length = e := by
  unfold base58_decode_versioned at h
  split at h
  · exact absurd h (by simp)
  · split at h
    · exact absurd h (by simp)
    · split at h
      case _ hl =>
        injection h with h
        subst h
        exact hl
      case _ =>
        split at h
        case _ hc =>
          injection h with h
          subst h
          rw [List.length_take]
          omega
        case _ =>
          split at h
          case _ hc =>
            injection h with h
            subst h
            rw [List.length_take]
            omega
          case _ => exact absurd h (by simp)

/-! ### Claim theorems: upload authentication -/

set_option maxRecDepth 8000 in
/-- C3 counterexample: an oracle under which the signature is valid over
the re-hashed hex text of the body digest (the claimed alternate mode)
but not over the digest itself.  The key and signature decode correctly
(all-zero key and signature, base58 strings of `'1'`s), yet
`verify_upload_signature` rejects with `VerificationFailed`: the
function accepts no alternate message form. -/
theorem auth_alternate_mode_counterexample :
    base58_decode_versioned (stripLeadingP "111111111111111111111111111111111") 32
      = .ok (List.replicate 32 0) ∧
    base58_decode_versioned
        "11111111111111111111111111111111111111111111111111111111111111111" 64
      = .ok (List.replicate 64 0) ∧
    oracleAltOnly.verify (List.replicate 32 0)
        (oracleAltOnly.blake3 (specHexTextBytes (oracleAltOnly.blake3 [])))
        (List.replicate 64 0) = true ∧
    verify_upload_signature oracleAltOnly []
        "AU1JnimoipKyiUrowSLP93Q2Ugq43fbz9VJw9TczFFxxGcvj4ZYD"
        "11111111111111111111111111111111111111111111111111111111111111111"
        "111111111111111111111111111111111"
      = .error .verificationFailed := by
  exact ⟨rfl, rfl, rfl, rfl⟩

/-- C3 (amended): whenever the public key and the signature decode
successfully and the key is structurally valid, `verify_upload_signature`
succeeds exactly when the signature verifies over the single accepted
message, the 256-bit Blake3 hash of the body; there is no alternate
accepted mode, and a signature not valid over that digest is rejected
with `VerificationFailed`. -/
theorem verify_single_message_mode (O : EdOracle) (body : List Nat)
    (massaAddress sigB58 pkB58 : String) (pkRaw sigRaw : List Nat)
    (hpk : base58_decode_versioned (stripLeadingP pkB58) 32 = .ok pkRaw)
    (hsig : base58_decode_versioned sigB58 64 = .ok sigRaw)
    (hkv : O.keyValid pkRaw = true) :
    (verify_upload_signature O body massaAddress sigB58 pkB58 = .ok ()
      ↔ O.verify pkRaw (O.blake3 body) sigRaw = true) ∧
    (O.verify pkRaw (O.blake3 body) sigRaw = false →
      verify_upload_signature O body massaAddress sigB58 pkB58
        = .error .verificationFailed) := by
  have hlpk : pkRaw.length = 32 := base58dv_ok_length hpk
  have hlsig : sigRaw.length = 64 := base58dv_ok_length hsig
  unfold verify_upload_signature
  rw [hpk, hsig]
  simp only []
  rw [if_neg (by omega : ¬ pkRaw.length ≠ 32)]
  rw [if_neg (by rw [hkv]; simp : ¬ O.keyValid pkRaw = false)]
  rw [if_neg (by omega : ¬ sigRaw.length ≠ 64)]
  constructor
  · by_cases hv : O.verify pkRaw (O.blake3 body) sigRaw = true
    · rw [if_pos hv]
      exact ⟨fun _ => hv, fun _ => rfl⟩
    · rw [if_neg hv]
      constructor
      · intro habs
        exact absurd habs (by simp)
      · intro hc
        exact absurd hc hv
  · intro hv
    rw [if_neg (by rw [hv]; simp : ¬ O.verify pkRaw (O.blake3 body) sigRaw = true)]

set_option maxRecDepth 8000 in
theorem verify_single_message_mode_witness :
    verify_upload_signature oracleAcceptAll []
        "AU1JnimoipKyiUrowSLP93Q2Ugq43fbz9VJw9TczFFxxGcvj4ZYD"
        "11111111111111111111111111111111111111111111111111111111111111111"
        "111111111111111111111111111111111"
      = .ok () := by
  exact (verify_single_message_mode oracleAcceptAll []
    "AU1JnimoipKyiUrowSLP93Q2Ugq43fbz9VJw9TczFFxxGcvj4ZYD"
    "11111111111111111111111111111111111111111111111111111111111111111"
    "111111111111111111111111111111111"
    (List.replicate 32 0) (List.replicate 64 0) rfl rfl rfl).1.mpr rfl

end CommunityStorage
